import Mathlib

/-!
Verification of `NonLeaderLogManager` (src/src/log_manager/non_leader_log_manager.cc),
the follower-side log-replication state machine of raftcpp.

The C++ class keeps `all_log_entries_ : std::map<int64, LogEntry>`, the replication
cursor `next_index_ : int64`, the commit frontier `committed_log_index_ : int64`, and
forwards committed payloads to the state machine through `fsm_->OnApply(data)`.
We embed the map as an association list sorted by strictly increasing key (the
canonical representation of a `std::map`), the cursor fields as `Int`, and record
the sequence of `OnApply` calls in an `applied` trace.  `RAFTCPP_CHECK` failures
(process-fatal assertions) are embedded as `Except.error`.
-/

namespace Raftcpp

/-- A log entry: `log_index` (int64), `term` (int32, via `term_id.getTerm()`),
and the payload `data`. -/
structure LogEntry where
  log_index : Int
  term : Int
  data : String
deriving DecidableEq

/-- `all_log_entries_.find(i)` : first binding of key `i` in the list. -/
def storeFind : List (Int × LogEntry) → Int → Option LogEntry
  | [], _ => none
  | (k, v) :: rest, i => if k = i then some v else storeFind rest i

/-- `all_log_entries_.erase(it)` for the iterator found at key `i`:
removes the first binding of key `i`. -/
def storeErase : List (Int × LogEntry) → Int → List (Int × LogEntry)
  | [], _ => []
  | (k, v) :: rest, i => if k = i then rest else (k, v) :: storeErase rest i

/-- `all_log_entries_[i] = e` : sorted insert-or-replace, keeping the list
ordered by strictly increasing key like a `std::map`. -/
def storeInsert : List (Int × LogEntry) → Int → LogEntry → List (Int × LogEntry)
  | [], i, e => [(i, e)]
  | (k, v) :: rest, i, e =>
    if i < k then (i, e) :: (k, v) :: rest
    else if i = k then (i, e) :: rest
    else (k, v) :: storeInsert rest i e

/-- `x` is strictly below every key of the list. -/
def keyLtAll (x : Int) : List (Int × LogEntry) → Bool
  | [] => true
  | (k, _) :: rest => decide (x < k) && keyLtAll x rest

/-- The representation invariant of `std::map`: keys strictly increasing. -/
def storeSortedB : List (Int × LogEntry) → Bool
  | [] => true
  | (k, _) :: rest => keyLtAll k rest && storeSortedB rest

/-- One step of the conflict-truncation loop of `Push` (lines 68-71), with
explicit fuel; each successful `find` erases exactly one binding, so fuel
equal to the list length makes this the same function as the C++ `while`. -/
def eraseFromFuel : Nat → List (Int × LogEntry) → Int → List (Int × LogEntry)
  | 0, st, _ => st
  | n + 1, st, i =>
    match storeFind st i with
    | none => st
    | some _ => eraseFromFuel n (storeErase st i) (i + 1)

/-- The conflict-truncation loop: `while ((it = find(index)) != end) { erase(it); index++; }`. -/
def eraseFrom (st : List (Int × LogEntry)) (i : Int) : List (Int × LogEntry) :=
  eraseFromFuel st.length st i

/-- The log-replication state owned by `NonLeaderLogManager`: the entry map,
the replication cursor, and the trace of payloads passed to `fsm_->OnApply`. -/
structure MState where
  store : List (Int × LogEntry)
  next_index : Int
  committed_log_index : Int
  applied : List String
deriving DecidableEq

/-- Modelled from the spec: the class header (`non_leader_log_manager.h`) is not
under `src/`, so the initial cursor values of a fresh manager come from the
spec's scenarios: empty log, `next_index` 0 (healthy append of index 0 advances
it to 1), committed index -1 (committing index 0 must apply entry 0), nothing
applied yet. -/
def initState : MState :=
  { store := [], next_index := 0, committed_log_index := -1, applied := [] }

/-- Body of the apply loop of `CommitLogs` (lines 90-94), with fuel equal to the
iteration count `committed_log_index_ - last_committed_log_index` computed at
entry (the loop body never changes `committed_log_index_`).  Each iteration
checks `RAFTCPP_CHECK(all_log_entries_.count(index) == 1)` — embedded as
`Except.error` on a missing entry — and then applies `all_log_entries_[index].data`. -/
def commitApplyLoop : Nat → Int → MState → Except Unit MState
  | 0, _, s => .ok s
  | n + 1, idx, s =>
    match storeFind s.store idx with
    | none => .error ()
    | some e => commitApplyLoop n (idx + 1) { s with applied := s.applied ++ [e.data] }

/-- `NonLeaderLogManager::CommitLogs` (lines 84-95), exactly as written: return
if `committed_log_index <= committed_log_index_`; otherwise
`last_committed_log_index` is set to the NEW `committed_log_index` (not the
previous member value), the member is updated, and the loop runs from
`last_committed_log_index + 1` up to `committed_log_index_`. -/
def CommitLogs (committed_log_index : Int) (s : MState) : Except Unit MState :=
  if committed_log_index ≤ s.committed_log_index then
    .ok s
  else
    let last_committed_log_index := committed_log_index
    let s1 := { s with committed_log_index := committed_log_index }
    commitApplyLoop (s1.committed_log_index - last_committed_log_index).toNat
      (last_committed_log_index + 1) s1

/-- `Push` lines 54-62: gap / previous-term mismatch check. If the entry at
`log_index - 1` is absent or its term differs from `pre_log_term`, set
`next_index_` to `log_index - 1`. -/
def pushGapCheck (pre_log_term : Int) (log_entry : LogEntry) (s : MState) : MState :=
  if log_entry.log_index > 0 then
    match storeFind s.store (log_entry.log_index - 1) with
    | none => { s with next_index := log_entry.log_index - 1 }
    | some e =>
      if e.term ≠ pre_log_term then { s with next_index := log_entry.log_index - 1 }
      else s
  else s

/-- `Push` lines 64-75: if an entry is already stored at `log_index` with a
different term, erase the contiguous run of stored entries starting there and
set `next_index_` to `log_index`. -/
def pushConflictCheck (log_entry : LogEntry) (s : MState) : MState :=
  match storeFind s.store log_entry.log_index with
  | none => s
  | some e =>
    if e.term ≠ log_entry.term then
      { s with
        store := eraseFrom s.store log_entry.log_index,
        next_index := log_entry.log_index }
    else s

/-- `Push` lines 77-80: store the entry unconditionally, then advance
`next_index_` to `log_index + 1` when `log_index >= next_index_`. -/
def pushStoreAndAdvance (log_entry : LogEntry) (s : MState) : MState :=
  let s1 := { s with store := storeInsert s.store log_entry.log_index log_entry }
  if log_entry.log_index ≥ s1.next_index then
    { s1 with next_index := log_entry.log_index + 1 }
  else s1

/-- `NonLeaderLogManager::Push` (lines 45-82): the initial
`RAFTCPP_CHECK(log_entry.log_index >= 0)` (embedded as `Except.error`), the
duplicate-detection step (lines 49-52, a log message with no state effect),
then gap check, conflict truncation, unconditional store with frontier
advance, and finally `CommitLogs(committed_log_index)`. -/
def Push (committed_log_index pre_log_term : Int) (log_entry : LogEntry)
    (s : MState) : Except Unit MState :=
  if 0 ≤ log_entry.log_index then
    CommitLogs committed_log_index
      (pushStoreAndAdvance log_entry (pushConflictCheck log_entry
        (pushGapCheck pre_log_term log_entry s)))
  else .error ()

/-- One externally observable operation on the manager's log state. -/
inductive MOp where
  | push (committed_log_index pre_log_term : Int) (log_entry : LogEntry)
  | commit (committed_log_index : Int)
deriving DecidableEq

def runOp : MOp → MState → Except Unit MState
  | .push c p e, s => Push c p e s
  | .commit c, s => CommitLogs c s

def runOps : List MOp → MState → Except Unit MState
  | [], s => .ok s
  | op :: rest, s =>
    match runOp op s with
    | .ok s1 => runOps rest s1
    | .error u => .error u

/-! ### Lemmas about the store operations -/

theorem storeFind_storeErase_of_ne (st : List (Int × LogEntry)) (i j : Int) (h : j ≠ i) :
    storeFind (storeErase st i) j = storeFind st j := by
  induction st with
  | nil => rfl
  | cons kv rest ih =>
    obtain ⟨k, v⟩ := kv
    by_cases hk : k = i
    · subst hk
      have hkj : ¬ (k = j) := fun hc => h (hc ▸ rfl)
      simp [storeErase, storeFind, hkj]
    · simp only [storeErase, if_neg hk, storeFind]
      by_cases hkj : k = j
      · simp [hkj]
      · simp [hkj, ih]

theorem storeErase_length (st : List (Int × LogEntry)) (i : Int) (e : LogEntry)
    (h : storeFind st i = some e) : (storeErase st i).length + 1 = st.length := by
  induction st with
  | nil => simp [storeFind] at h
  | cons kv rest ih =>
    obtain ⟨k, v⟩ := kv
    by_cases hk : k = i
    · simp [storeErase, hk]
    · simp only [storeFind, if_neg hk] at h
      simp [storeErase, hk, ih h]

theorem keyLtAll_of_lt (x y : Int) (st : List (Int × LogEntry)) (hxy : x < y)
    (h : keyLtAll y st = true) : keyLtAll x st = true := by
  induction st with
  | nil => rfl
  | cons kv rest ih =>
    obtain ⟨k, v⟩ := kv
    simp only [keyLtAll, Bool.and_eq_true, decide_eq_true_eq] at h ⊢
    exact ⟨lt_trans hxy h.1, ih h.2⟩

theorem storeFind_eq_none_of_keyLtAll (st : List (Int × LogEntry)) (x i : Int)
    (h : keyLtAll x st = true) (hix : i ≤ x) : storeFind st i = none := by
  induction st with
  | nil => rfl
  | cons kv rest ih =>
    obtain ⟨k, v⟩ := kv
    simp only [keyLtAll, Bool.and_eq_true, decide_eq_true_eq] at h
    have hk : ¬ (k = i) := by omega
    simp [storeFind, hk, ih h.2]

theorem keyLtAll_storeErase (st : List (Int × LogEntry)) (x i : Int)
    (h : keyLtAll x st = true) : keyLtAll x (storeErase st i) = true := by
  induction st with
  | nil => rfl
  | cons kv rest ih =>
    obtain ⟨k, v⟩ := kv
    simp only [keyLtAll, Bool.and_eq_true, decide_eq_true_eq] at h
    by_cases hk : k = i
    · simp [storeErase, hk, h.2]
    · simp only [storeErase, if_neg hk, keyLtAll, Bool.and_eq_true, decide_eq_true_eq]
      exact ⟨h.1, ih h.2⟩

theorem storeSortedB_storeErase (st : List (Int × LogEntry)) (i : Int)
    (h : storeSortedB st = true) : storeSortedB (storeErase st i) = true := by
  induction st with
  | nil => rfl
  | cons kv rest ih =>
    obtain ⟨k, v⟩ := kv
    simp only [storeSortedB, Bool.and_eq_true] at h
    by_cases hk : k = i
    · simp [storeErase, hk, h.2]
    · simp only [storeErase, if_neg hk, storeSortedB, Bool.and_eq_true]
      exact ⟨keyLtAll_storeErase rest k i h.1, ih h.2⟩

theorem storeFind_storeErase_self (st : List (Int × LogEntry)) (i : Int)
    (h : storeSortedB st = true) : storeFind (storeErase st i) i = none := by
  induction st with
  | nil => rfl
  | cons kv rest ih =>
    obtain ⟨k, v⟩ := kv
    simp only [storeSortedB, Bool.and_eq_true] at h
    by_cases hk : k = i
    · subst hk
      simp only [storeErase, if_pos rfl]
      exact storeFind_eq_none_of_keyLtAll rest k k h.1 le_rfl
    · simp [storeErase, hk, storeFind, ih h.2]

theorem keyLtAll_storeInsert (st : List (Int × LogEntry)) (x i : Int) (e : LogEntry)
    (h : keyLtAll x st = true) (hxi : x < i) : keyLtAll x (storeInsert st i e) = true := by
  induction st with
  | nil => simp [storeInsert, keyLtAll, hxi]
  | cons kv rest ih =>
    obtain ⟨k, v⟩ := kv
    simp only [keyLtAll, Bool.and_eq_true, decide_eq_true_eq] at h
    by_cases h1 : i < k
    · simp only [storeInsert, if_pos h1, keyLtAll, Bool.and_eq_true, decide_eq_true_eq]
      exact ⟨hxi, h.1, h.2⟩
    · by_cases h2 : i = k
      · simp only [storeInsert, if_neg h1, if_pos h2, keyLtAll, Bool.and_eq_true,
          decide_eq_true_eq]
        exact ⟨hxi, h.2⟩
      · simp only [storeInsert, if_neg h1, if_neg h2, keyLtAll, Bool.and_eq_true,
          decide_eq_true_eq]
        exact ⟨h.1, ih h.2⟩

theorem storeSortedB_storeInsert (st : List (Int × LogEntry)) (i : Int) (e : LogEntry)
    (h : storeSortedB st = true) : storeSortedB (storeInsert st i e) = true := by
  induction st with
  | nil => simp [storeInsert, storeSortedB, keyLtAll]
  | cons kv rest ih =>
    obtain ⟨k, v⟩ := kv
    simp only [storeSortedB, Bool.and_eq_true] at h
    by_cases h1 : i < k
    · simp only [storeInsert, if_pos h1, storeSortedB, Bool.and_eq_true,
        keyLtAll, decide_eq_true_eq]
      exact ⟨⟨h1, keyLtAll_of_lt i k rest h1 h.1⟩, h.1, h.2⟩
    · by_cases h2 : i = k
      · subst h2
        simp only [storeInsert, if_neg h1, if_pos rfl, storeSortedB, Bool.and_eq_true]
        exact ⟨h.1, h.2⟩
      · have hki : k < i := by omega
        simp only [storeInsert, if_neg h1, if_neg h2, storeSortedB, Bool.and_eq_true]
        exact ⟨keyLtAll_storeInsert rest k i e h.1 hki, ih h.2⟩

theorem storeFind_storeInsert_self (st : List (Int × LogEntry)) (i : Int) (e : LogEntry) :
    storeFind (storeInsert st i e) i = some e := by
  induction st with
  | nil => simp [storeInsert, storeFind]
  | cons kv rest ih =>
    obtain ⟨k, v⟩ := kv
    by_cases h1 : i < k
    · simp [storeInsert, if_pos h1, storeFind]
    · by_cases h2 : i = k
      · simp [storeInsert, if_neg h1, if_pos h2, storeFind]
      · have hk : ¬ (k = i) := fun hc => h2 hc.symm
        simp [storeInsert, if_neg h1, if_neg h2, storeFind, hk, ih]

theorem storeFind_storeInsert_of_ne (st : List (Int × LogEntry)) (i j : Int) (e : LogEntry)
    (h : j ≠ i) : storeFind (storeInsert st i e) j = storeFind st j := by
  induction st with
  | nil => simp [storeInsert, storeFind, Ne.symm h]
  | cons kv rest ih =>
    obtain ⟨k, v⟩ := kv
    by_cases h1 : i < k
    · simp [storeInsert, if_pos h1, storeFind, Ne.symm h]
    · by_cases h2 : i = k
      · subst h2
        simp [storeInsert, if_neg h1, storeFind, Ne.symm h]
      · simp only [storeInsert, if_neg h1, if_neg h2, storeFind]
        by_cases hkj : k = j
        · simp [hkj]
        · simp [hkj, ih]

theorem storeInsert_eq_self (st : List (Int × LogEntry)) (i : Int) (e : LogEntry)
    (hs : storeSortedB st = true) (h : storeFind st i = some e) :
    storeInsert st i e = st := by
  induction st with
  | nil => simp [storeFind] at h
  | cons kv rest ih =>
    obtain ⟨k, v⟩ := kv
    simp only [storeSortedB, Bool.and_eq_true] at hs
    by_cases hk : k = i
    · subst hk
      have h' : v = e := by simpa [storeFind] using h
      subst h'
      simp [storeInsert]
    · simp only [storeFind, if_neg hk] at h
      have h1 : ¬ (i < k) := by
        intro hik
        have := storeFind_eq_none_of_keyLtAll rest k i hs.1 (le_of_lt hik)
        rw [this] at h
        exact Option.noConfusion h
      have h2 : ¬ (i = k) := fun hc => hk hc.symm
      simp [storeInsert, if_neg h1, if_neg h2, ih hs.2 h]

/-! ### Lemmas about the truncation loop -/

theorem eraseFromFuel_find_lt (n : Nat) (st : List (Int × LogEntry)) (i j : Int)
    (h : j < i) : storeFind (eraseFromFuel n st i) j = storeFind st j := by
  induction n generalizing st i with
  | zero => rfl
  | succ n ih =>
    unfold eraseFromFuel
    cases hf : storeFind st i with
    | none => rfl
    | some e =>
      rw [ih (storeErase st i) (i + 1) (by omega)]
      exact storeFind_storeErase_of_ne st i j (by omega)

theorem eraseFromFuel_sorted (n : Nat) (st : List (Int × LogEntry)) (i : Int)
    (h : storeSortedB st = true) : storeSortedB (eraseFromFuel n st i) = true := by
  induction n generalizing st i with
  | zero => exact h
  | succ n ih =>
    unfold eraseFromFuel
    cases hf : storeFind st i with
    | none => exact h
    | some e => exact ih (storeErase st i) (i + 1) (storeSortedB_storeErase st i h)

theorem eraseFromFuel_find_none (n : Nat) (st : List (Int × LogEntry)) (i j : Int)
    (hn : st.length = n) (hs : storeSortedB st = true) (hij : i ≤ j)
    (hrun : ∀ k, i ≤ k → k ≤ j → (storeFind st k).isSome = true) :
    storeFind (eraseFromFuel n st i) j = none := by
  induction n generalizing st i with
  | zero =>
    exfalso
    have hi := hrun i le_rfl hij
    cases st with
    | nil => simp [storeFind] at hi
    | cons kv rest => simp at hn
  | succ n ih =>
    have hi := hrun i le_rfl hij
    cases hf : storeFind st i with
    | none => rw [hf] at hi; simp at hi
    | some e =>
      unfold eraseFromFuel
      rw [hf]
      rcases lt_or_eq_of_le hij with hlt | heq
      · refine ih (storeErase st i) (i + 1) ?_ (storeSortedB_storeErase st i hs)
          (by omega) ?_
        · have := storeErase_length st i e hf
          omega
        · intro k hk1 hk2
          rw [storeFind_storeErase_of_ne st i k (by omega)]
          exact hrun k (by omega) hk2
      · subst heq
        rw [eraseFromFuel_find_lt n (storeErase st i) (i + 1) i (by omega)]
        exact storeFind_storeErase_self st i hs

theorem eraseFrom_find_lt (st : List (Int × LogEntry)) (i j : Int) (h : j < i) :
    storeFind (eraseFrom st i) j = storeFind st j :=
  eraseFromFuel_find_lt st.length st i j h

theorem eraseFrom_sorted (st : List (Int × LogEntry)) (i : Int)
    (h : storeSortedB st = true) : storeSortedB (eraseFrom st i) = true :=
  eraseFromFuel_sorted st.length st i h

theorem eraseFrom_find_none (st : List (Int × LogEntry)) (i j : Int)
    (hs : storeSortedB st = true) (hij : i ≤ j)
    (hrun : ∀ k, i ≤ k → k ≤ j → (storeFind st k).isSome = true) :
    storeFind (eraseFrom st i) j = none :=
  eraseFromFuel_find_none st.length st i j rfl hs hij hrun

/-! ### Characterization of `CommitLogs` and the `Push` pipeline -/

/-- The value `CommitLogs` actually computes (see `commitLogs_eq`): because the
loop lower bound is derived from the NEW commit index, the apply loop runs zero
times, so only `committed_log_index` is updated. -/
def commitResult (c : Int) (s : MState) : MState :=
  if c ≤ s.committed_log_index then s else { s with committed_log_index := c }

theorem commitLogs_eq (c : Int) (s : MState) :
    CommitLogs c s = .ok (commitResult c s) := by
  by_cases h : c ≤ s.committed_log_index
  · simp [CommitLogs, commitResult, h]
  · simp [CommitLogs, commitResult, h, commitApplyLoop, Int.sub_self]

theorem commitResult_store (c : Int) (s : MState) :
    (commitResult c s).store = s.store := by
  unfold commitResult; split <;> rfl

theorem commitResult_next (c : Int) (s : MState) :
    (commitResult c s).next_index = s.next_index := by
  unfold commitResult; split <;> rfl

theorem commitResult_applied (c : Int) (s : MState) :
    (commitResult c s).applied = s.applied := by
  unfold commitResult; split <;> rfl

theorem commitResult_committed_ge (c : Int) (s : MState) :
    c ≤ (commitResult c s).committed_log_index ∧
      s.committed_log_index ≤ (commitResult c s).committed_log_index := by
  unfold commitResult
  split
  · omega
  · simp; omega

/-- The state `Push` actually produces when its index check passes. -/
def pushResult (c p : Int) (e : LogEntry) (s : MState) : MState :=
  commitResult c (pushStoreAndAdvance e (pushConflictCheck e (pushGapCheck p e s)))

theorem push_eq_ok (c p : Int) (e : LogEntry) (s : MState) (h0 : 0 ≤ e.log_index) :
    Push c p e s = .ok (pushResult c p e s) := by
  unfold Push pushResult
  rw [if_pos h0, commitLogs_eq]

theorem pushGapCheck_store (p : Int) (e : LogEntry) (s : MState) :
    (pushGapCheck p e s).store = s.store := by
  unfold pushGapCheck
  split
  · split
    · rfl
    · split <;> rfl
  · rfl

theorem pushGapCheck_committed (p : Int) (e : LogEntry) (s : MState) :
    (pushGapCheck p e s).committed_log_index = s.committed_log_index := by
  unfold pushGapCheck
  split
  · split
    · rfl
    · split <;> rfl
  · rfl

theorem pushGapCheck_applied (p : Int) (e : LogEntry) (s : MState) :
    (pushGapCheck p e s).applied = s.applied := by
  unfold pushGapCheck
  split
  · split
    · rfl
    · split <;> rfl
  · rfl

theorem pushConflictCheck_store_cases (e : LogEntry) (s : MState) :
    (pushConflictCheck e s).store = s.store ∨
      (pushConflictCheck e s).store = eraseFrom s.store e.log_index := by
  unfold pushConflictCheck
  split
  · exact Or.inl rfl
  · split
    · exact Or.inr rfl
    · exact Or.inl rfl

theorem pushConflictCheck_next_cases (e : LogEntry) (s : MState) :
    (pushConflictCheck e s).next_index = s.next_index ∨
      (pushConflictCheck e s).next_index = e.log_index := by
  unfold pushConflictCheck
  split
  · exact Or.inl rfl
  · split
    · exact Or.inr rfl
    · exact Or.inl rfl

theorem pushConflictCheck_committed (e : LogEntry) (s : MState) :
    (pushConflictCheck e s).committed_log_index = s.committed_log_index := by
  unfold pushConflictCheck
  split
  · rfl
  · split <;> rfl

theorem pushConflictCheck_applied (e : LogEntry) (s : MState) :
    (pushConflictCheck e s).applied = s.applied := by
  unfold pushConflictCheck
  split
  · rfl
  · split <;> rfl

theorem pushStoreAndAdvance_store (e : LogEntry) (s : MState) :
    (pushStoreAndAdvance e s).store = storeInsert s.store e.log_index e := by
  unfold pushStoreAndAdvance
  dsimp only
  split <;> rfl

theorem pushStoreAndAdvance_next (e : LogEntry) (s : MState) :
    (pushStoreAndAdvance e s).next_index =
      if e.log_index ≥ s.next_index then e.log_index + 1 else s.next_index := by
  unfold pushStoreAndAdvance
  dsimp only
  by_cases h : e.log_index ≥ s.next_index
  · rw [if_pos h, if_pos h]
  · rw [if_neg h, if_neg h]

theorem pushStoreAndAdvance_committed (e : LogEntry) (s : MState) :
    (pushStoreAndAdvance e s).committed_log_index = s.committed_log_index := by
  unfold pushStoreAndAdvance
  dsimp only
  split <;> rfl

theorem pushStoreAndAdvance_applied (e : LogEntry) (s : MState) :
    (pushStoreAndAdvance e s).applied = s.applied := by
  unfold pushStoreAndAdvance
  dsimp only
  split <;> rfl

theorem pushResult_next_ge (c p : Int) (e : LogEntry) (s : MState) :
    e.log_index + 1 ≤ (pushResult c p e s).next_index := by
  unfold pushResult
  rw [commitResult_next, pushStoreAndAdvance_next]
  split <;> omega

theorem pushResult_store (c p : Int) (e : LogEntry) (s : MState) :
    (pushResult c p e s).store =
      storeInsert (pushConflictCheck e (pushGapCheck p e s)).store e.log_index e := by
  unfold pushResult
  rw [commitResult_store, pushStoreAndAdvance_store]

theorem pushResult_find_lt (c p : Int) (e : LogEntry) (s : MState) (j : Int)
    (hj : j < e.log_index) :
    storeFind (pushResult c p e s).store j = storeFind s.store j := by
  rw [pushResult_store, storeFind_storeInsert_of_ne _ _ _ _ (by omega)]
  rcases pushConflictCheck_store_cases e (pushGapCheck p e s) with hcs | hcs
  · rw [hcs, pushGapCheck_store]
  · rw [hcs, eraseFrom_find_lt _ _ _ hj, pushGapCheck_store]

theorem pushResult_applied (c p : Int) (e : LogEntry) (s : MState) :
    (pushResult c p e s).applied = s.applied := by
  unfold pushResult
  rw [commitResult_applied, pushStoreAndAdvance_applied, pushConflictCheck_applied,
    pushGapCheck_applied]

theorem pushResult_committed (c p : Int) (e : LogEntry) (s : MState) :
    (pushResult c p e s).committed_log_index =
      (commitResult c (pushGapCheck p e s)).committed_log_index := by
  unfold pushResult commitResult
  rw [pushStoreAndAdvance_committed, pushConflictCheck_committed]
  by_cases h : c ≤ (pushGapCheck p e s).committed_log_index
  · rw [if_pos h, if_pos h, pushStoreAndAdvance_committed, pushConflictCheck_committed]
  · rw [if_neg h, if_neg h]

theorem pushGapCheck_next_cases (p : Int) (e : LogEntry) (s : MState) :
    (pushGapCheck p e s).next_index = s.next_index ∨
      (pushGapCheck p e s).next_index = e.log_index - 1 := by
  unfold pushGapCheck
  split
  · split
    · exact Or.inr rfl
    · split
      · exact Or.inr rfl
      · exact Or.inl rfl
  · exact Or.inl rfl

theorem pushGapCheck_next_of_gap (p : Int) (e : LogEntry) (s : MState)
    (h0 : e.log_index > 0)
    (hgap : storeFind s.store (e.log_index - 1) = none ∨
      ∃ pe, storeFind s.store (e.log_index - 1) = some pe ∧ pe.term ≠ p) :
    (pushGapCheck p e s).next_index = e.log_index - 1 := by
  unfold pushGapCheck
  rw [if_pos h0]
  rcases hgap with hnone | ⟨pe, hfind, hne⟩
  · rw [hnone]
  · rw [hfind]
    simp only [if_pos hne]

theorem pushGapCheck_of_zero (p : Int) (e : LogEntry) (s : MState)
    (h0 : ¬ e.log_index > 0) : pushGapCheck p e s = s := by
  unfold pushGapCheck
  rw [if_neg h0]

theorem pushGapCheck_of_matching (p : Int) (e : LogEntry) (pe : LogEntry) (s : MState)
    (hfind : storeFind s.store (e.log_index - 1) = some pe) (hterm : pe.term = p) :
    pushGapCheck p e s = s := by
  unfold pushGapCheck
  split
  · rw [hfind]
    simp [hterm]
  · rfl

theorem pushConflictCheck_triggered (e e0 : LogEntry) (s : MState)
    (hfind : storeFind s.store e.log_index = some e0) (hterm : e0.term ≠ e.term) :
    pushConflictCheck e s =
      { s with store := eraseFrom s.store e.log_index, next_index := e.log_index } := by
  unfold pushConflictCheck
  rw [hfind]
  simp only [if_pos hterm]

theorem pushConflictCheck_same_term (e e0 : LogEntry) (s : MState)
    (hfind : storeFind s.store e.log_index = some e0) (hterm : e0.term = e.term) :
    pushConflictCheck e s = s := by
  unfold pushConflictCheck
  rw [hfind]
  simp [hterm]

theorem pushResult_sorted (c p : Int) (e : LogEntry) (s : MState)
    (hs : storeSortedB s.store = true) : storeSortedB (pushResult c p e s).store = true := by
  rw [pushResult_store]
  refine storeSortedB_storeInsert _ _ _ ?_
  rcases pushConflictCheck_store_cases e (pushGapCheck p e s) with hcs | hcs
  · rw [hcs, pushGapCheck_store]; exact hs
  · rw [hcs, pushGapCheck_store]
    exact eraseFrom_sorted _ _ hs

theorem pushResult_find_self (c p : Int) (e : LogEntry) (s : MState) :
    storeFind (pushResult c p e s).store e.log_index = some e := by
  rw [pushResult_store]
  exact storeFind_storeInsert_self _ _ _

theorem runOp_committed_mono (op : MOp) (s s1 : MState) (h : runOp op s = .ok s1) :
    s.committed_log_index ≤ s1.committed_log_index := by
  cases op with
  | push c p e =>
    by_cases h0 : 0 ≤ e.log_index
    · rw [runOp, push_eq_ok c p e s h0] at h
      injection h with h
      subst h
      rw [pushResult_committed]
      have := commitResult_committed_ge c (pushGapCheck p e s)
      rw [pushGapCheck_committed] at this
      exact this.2
    · rw [runOp, Push, if_neg h0] at h
      exact Except.noConfusion h
  | commit c =>
    rw [runOp, commitLogs_eq] at h
    injection h with h
    subst h
    exact (commitResult_committed_ge c s).2

theorem runOps_committed_mono (ops : List MOp) (s s1 : MState)
    (h : runOps ops s = .ok s1) : s.committed_log_index ≤ s1.committed_log_index := by
  induction ops generalizing s with
  | nil =>
    rw [runOps] at h
    injection h with h
    subst h
    exact le_rfl
  | cons op rest ih =>
    rw [runOps] at h
    cases hop : runOp op s with
    | ok s2 =>
      rw [hop] at h
      exact le_trans (runOp_committed_mono op s s2 hop) (ih s2 h)
    | error u =>
      rw [hop] at h
      exact Except.noConfusion h

/-! ### `DoPullLogs` (lines 97-113) -/

/-- Outbound `REQUEST_PULL_LOGS` message: `this_node_id_.ToBinary()` and
`next_index_` (lines 108-112). -/
structure PullLogsRequest where
  requester_id : String
  next_index : Int
deriving DecidableEq

/-- Whole-manager state as seen by `DoPullLogs`: the log state, the
`is_running_` flag, and whether the `TIMER_PULL_LOGS` registration is running
in the timer manager. -/
structure ManagerState where
  log : MState
  is_running : Bool
  timer_running : Bool
deriving DecidableEq

/-- `NonLeaderLogManager::DoPullLogs` (lines 97-113).  The resolved leader
client (`get_leader_rpc_client_func_()`) is passed in as `leader_rpc_client`;
`none` is `nullptr`.  On `nullptr` it logs, stores `false` into `is_running_`
and returns without sending and without touching the timer; otherwise it
issues exactly one `async_call` carrying this node's id and `next_index_`. -/
def DoPullLogs (this_node_id : String) (leader_rpc_client : Option Unit)
    (s : ManagerState) : ManagerState × Option PullLogsRequest :=
  match leader_rpc_client with
  | none => ({ s with is_running := false }, none)
  | some _ =>
    (s, some { requester_id := this_node_id, next_index := s.log.next_index })

/-! ### Lock discipline (claim C8)

`DoPullLogs` opens with `std::lock_guard<std::mutex> lock(mutex_);` (line 98);
`Push` (lines 45-82, including its `CommitLogs` call, lines 84-95) performs no
lock acquisition at all.  We record, per invocation and in source order, the
mutex operations and the accesses to the shared state (`all_log_entries_`,
`next_index_`, `committed_log_index_`), and check each access happens at
positive lock depth. -/

inductive LockEvent where
  | acquire
  | release
  | sharedAccess
deriving DecidableEq

/-- Lock/shared-state event trace of one `Push` invocation.  `Push` contains
no `lock_guard`: every event is a bare access. -/
def pushLockTrace : List LockEvent :=
  [ .sharedAccess,   -- line 50: all_log_entries_.count(log_entry.log_index)
    .sharedAccess,   -- line 56: all_log_entries_.find(pre_log_index)
    .sharedAccess,   -- line 59: next_index_ = pre_log_index (conditional)
    .sharedAccess,   -- line 65: all_log_entries_.find(log_entry.log_index)
    .sharedAccess,   -- lines 68-71: find/erase loop over all_log_entries_
    .sharedAccess,   -- line 73: next_index_ = log_entry.log_index
    .sharedAccess,   -- line 77: all_log_entries_[log_entry.log_index] = log_entry
    .sharedAccess,   -- lines 78-79: next_index_ read and write
    .sharedAccess,   -- line 85: committed_log_index_ read (CommitLogs)
    .sharedAccess,   -- line 89: committed_log_index_ write
    .sharedAccess ]  -- lines 92-93: all_log_entries_ count and read

/-- Lock/shared-state event trace of one `DoPullLogs` invocation: the
`lock_guard` is acquired at line 98 and released at scope exit; when a leader
client is available, `next_index_` is read at line 112 while the guard is
held. -/
def doPullLogsLockTrace (leader_available : Bool) : List LockEvent :=
  if leader_available then [.acquire, .sharedAccess, .release]
  else [.acquire, .release]

/-- Every `sharedAccess` of the trace occurs at positive lock depth, starting
from depth `d`. -/
def accessesLockedFrom (d : Nat) : List LockEvent → Bool
  | [] => true
  | .acquire :: rest => accessesLockedFrom (d + 1) rest
  | .release :: rest => accessesLockedFrom (d - 1) rest
  | .sharedAccess :: rest => decide (0 < d) && accessesLockedFrom d rest

theorem MState.eq_of_fields (a b : MState) (h1 : a.store = b.store)
    (h2 : a.next_index = b.next_index)
    (h3 : a.committed_log_index = b.committed_log_index)
    (h4 : a.applied = b.applied) : a = b := by
  cases a; cases b
  cases h1; cases h2; cases h3; cases h4
  rfl

theorem pushResult_next_of_gap_next_le (c p : Int) (e : LogEntry) (s : MState)
    (h : (pushGapCheck p e s).next_index ≤ e.log_index) :
    (pushResult c p e s).next_index = e.log_index + 1 := by
  unfold pushResult
  rw [commitResult_next, pushStoreAndAdvance_next]
  rcases pushConflictCheck_next_cases e (pushGapCheck p e s) with hn | hn
  · rw [hn, if_pos (by omega)]
  · rw [hn, if_pos (by omega)]

/-- If the state already stores the pushed entry with the frontier and commit
index at least as far along, re-running the `Push` pipeline changes nothing. -/
theorem pushResult_fixed (c p : Int) (e : LogEntry) (r : MState)
    (f1 : storeFind r.store e.log_index = some e)
    (f2 : storeSortedB r.store = true)
    (f3 : e.log_index + 1 ≤ r.next_index)
    (f5 : c ≤ r.committed_log_index)
    (hgapcase : (pushGapCheck p e r).next_index = r.next_index ∨
      ((pushGapCheck p e r).next_index = e.log_index - 1 ∧
        r.next_index = e.log_index + 1)) :
    pushResult c p e r = r := by
  have hg2store : (pushGapCheck p e r).store = r.store := pushGapCheck_store p e r
  have hconf2 : pushConflictCheck e (pushGapCheck p e r) = pushGapCheck p e r :=
    pushConflictCheck_same_term e e _ (by rw [hg2store]; exact f1) rfl
  unfold pushResult
  rw [hconf2]
  have hsa : pushStoreAndAdvance e (pushGapCheck p e r) = r := by
    refine MState.eq_of_fields _ _ ?_ ?_ ?_ ?_
    · rw [pushStoreAndAdvance_store, hg2store,
        storeInsert_eq_self r.store e.log_index e f2 f1]
    · rw [pushStoreAndAdvance_next]
      rcases hgapcase with hv | ⟨hv, hrn⟩
      · rw [hv, if_neg (by omega)]
      · rw [hv, if_pos (by omega)]
        omega
    · rw [pushStoreAndAdvance_committed, pushGapCheck_committed]
    · rw [pushStoreAndAdvance_applied, pushGapCheck_applied]
  rw [hsa]
  unfold commitResult
  rw [if_pos f5]

theorem pushResult_next_of_conflict (c p : Int) (e e0 : LogEntry) (s : MState)
    (hfind : storeFind s.store e.log_index = some e0) (hterm : e0.term ≠ e.term) :
    (pushResult c p e s).next_index = e.log_index + 1 := by
  have hconf := pushConflictCheck_triggered e e0 (pushGapCheck p e s)
    (by rw [pushGapCheck_store]; exact hfind) hterm
  unfold pushResult
  rw [commitResult_next, pushStoreAndAdvance_next, hconf]
  dsimp only
  rw [if_pos (le_refl _)]

/-! ### Claim theorems -/

/-- C1: the spec's healthy-append scenario requires that pushing index 0 term 1
payload "x" with committed_index 0 into a fresh manager makes the applier
receive "x" exactly once.  The code does not do this: `CommitLogs` derives the
loop start from the new commit index, so the apply loop runs zero times and the
applier receives nothing (`applied = []`), even though `next_index` does become
1 and the commit index advances to 0. -/
theorem push_healthy_append_applies_nothing :
    Push 0 0 (LogEntry.mk 0 1 "x") initState =
      .ok (MState.mk [(0, LogEntry.mk 0 1 "x")] 1 0 []) ∧
    ([] : List String) ≠ ["x"] :=
  ⟨rfl, by decide⟩

/-- C2 (counterexample): with only index 0 (term 1) stored, pushing index 2
term 1 with prev_term 1 does NOT leave `next_index` equal to 1: the gap check
sets it to 1, but the frontier-advance step then sets it to 3. -/
theorem gap_detection_next_index_cex :
    Push (-1) 1 (LogEntry.mk 2 1 "c")
        (MState.mk [(0, LogEntry.mk 0 1 "a")] 1 (-1) []) =
      .ok (MState.mk [(0, LogEntry.mk 0 1 "a"), (2, LogEntry.mk 2 1 "c")] 3 (-1) []) ∧
    (3 : Int) ≠ 2 - 1 :=
  ⟨rfl, by decide⟩

/-- C2 (amended): if `Push` is called with an entry at `log_index > 0` whose
predecessor is absent or stored with a term different from `prev_term`, the gap
check transiently sets `next_index` to `log_index - 1`, but the final
frontier-advance step overrides it, so after `Push` returns `next_index`
equals `log_index + 1` — and the pushed entry is stored at `log_index`. -/
theorem gap_detection_amended (c p : Int) (e : LogEntry) (s s1 : MState)
    (h0 : 0 < e.log_index)
    (hgap : storeFind s.store (e.log_index - 1) = none ∨
      ∃ pe, storeFind s.store (e.log_index - 1) = some pe ∧ pe.term ≠ p)
    (h : Push c p e s = .ok s1) :
    s1.next_index = e.log_index + 1 ∧ storeFind s1.store e.log_index = some e := by
  rw [push_eq_ok c p e s (le_of_lt h0)] at h
  injection h with h
  subst h
  refine ⟨?_, pushResult_find_self c p e s⟩
  exact pushResult_next_of_gap_next_le c p e s
    (by rw [pushGapCheck_next_of_gap p e s h0 hgap]; omega)

/-- Witness for C2 (amended), at the spec's gap-detection scenario. -/
theorem gap_detection_amended_witness :
    (MState.mk [(0, LogEntry.mk 0 1 "a"), (2, LogEntry.mk 2 1 "c")] 3 (-1) []).next_index =
        2 + 1 ∧
    storeFind (MState.mk [(0, LogEntry.mk 0 1 "a"), (2, LogEntry.mk 2 1 "c")]
        3 (-1) []).store 2 = some (LogEntry.mk 2 1 "c") :=
  gap_detection_amended (-1) 1 (LogEntry.mk 2 1 "c")
    (MState.mk [(0, LogEntry.mk 0 1 "a")] 1 (-1) [])
    (MState.mk [(0, LogEntry.mk 0 1 "a"), (2, LogEntry.mk 2 1 "c")] 3 (-1) [])
    (by decide) (Or.inl rfl) rfl

/-- C3: pushing an entry at index `i` whose term differs from the entry stored
at `i` deletes the whole contiguous stored run starting at `i`, stores the new
entry at `i`, and leaves `next_index = i + 1`. -/
theorem conflict_truncation (c p : Int) (e e0 : LogEntry) (s s1 : MState)
    (hs : storeSortedB s.store = true) (h0 : 0 ≤ e.log_index)
    (hfind : storeFind s.store e.log_index = some e0) (hterm : e0.term ≠ e.term)
    (h : Push c p e s = .ok s1) :
    s1.next_index = e.log_index + 1 ∧
    storeFind s1.store e.log_index = some e ∧
    ∀ j, e.log_index < j →
      (∀ k, e.log_index ≤ k → k ≤ j → (storeFind s.store k).isSome = true) →
      storeFind s1.store j = none := by
  rw [push_eq_ok c p e s h0] at h
  injection h with h
  subst h
  have hgstore : (pushGapCheck p e s).store = s.store := pushGapCheck_store p e s
  have hconf := pushConflictCheck_triggered e e0 (pushGapCheck p e s)
    (by rw [hgstore]; exact hfind) hterm
  refine ⟨?_, pushResult_find_self c p e s, ?_⟩
  · exact pushResult_next_of_conflict c p e e0 s hfind hterm
  · intro j hj hrun
    rw [pushResult_store, hconf]
    dsimp only
    rw [hgstore, storeFind_storeInsert_of_ne _ _ _ _ (by omega)]
    exact eraseFrom_find_none s.store e.log_index j hs (le_of_lt hj) hrun

/-- Witness for C3, at the spec's conflict-resolution scenario: indices 0,1,2
at term 1; pushing index 1 term 2 deletes entries 1 and 2, stores the new
entry, and sets `next_index` to 2. -/
theorem conflict_truncation_witness :
    (MState.mk [(0, LogEntry.mk 0 1 "a"), (1, LogEntry.mk 1 2 "B")]
        2 (-1) []).next_index = 1 + 1 ∧
    storeFind (MState.mk [(0, LogEntry.mk 0 1 "a"), (1, LogEntry.mk 1 2 "B")]
        2 (-1) []).store 1 = some (LogEntry.mk 1 2 "B") ∧
    (∀ j, (1 : Int) < j →
      (∀ k, (1 : Int) ≤ k → k ≤ j →
        (storeFind [(0, LogEntry.mk 0 1 "a"), (1, LogEntry.mk 1 1 "b"),
          (2, LogEntry.mk 2 1 "c")] k).isSome = true) →
      storeFind (MState.mk [(0, LogEntry.mk 0 1 "a"), (1, LogEntry.mk 1 2 "B")]
        2 (-1) []).store j = none) :=
  conflict_truncation (-1) 1 (LogEntry.mk 1 2 "B") (LogEntry.mk 1 1 "b")
    (MState.mk [(0, LogEntry.mk 0 1 "a"), (1, LogEntry.mk 1 1 "b"),
      (2, LogEntry.mk 2 1 "c")] 3 (-1) [])
    (MState.mk [(0, LogEntry.mk 0 1 "a"), (1, LogEntry.mk 1 2 "B")] 2 (-1) [])
    (by decide) (by decide) (by decide) (by decide) rfl

/-- C4: the committed index never decreases across any sequence of `Push` and
`CommitLogs` calls, and a `CommitLogs` call with an argument at most the
current committed index returns the state unchanged (so no applier call). -/
theorem commit_monotone_noop :
    (∀ (ops : List MOp) (s s1 : MState), runOps ops s = .ok s1 →
      s.committed_log_index ≤ s1.committed_log_index) ∧
    (∀ (c : Int) (s : MState), c ≤ s.committed_log_index → CommitLogs c s = .ok s) := by
  constructor
  · exact runOps_committed_mono
  · intro c s h
    rw [CommitLogs, if_pos h]

/-- Witness for C4: a concrete push raises the committed index from -1 to 0,
and a stale `CommitLogs (-5)` is an exact no-op. -/
theorem commit_monotone_noop_witness :
    initState.committed_log_index ≤
      (MState.mk [(0, LogEntry.mk 0 1 "x")] 1 0 []).committed_log_index ∧
    CommitLogs (-5) initState = .ok initState :=
  ⟨commit_monotone_noop.1 [MOp.push 0 0 (LogEntry.mk 0 1 "x")] initState
      (MState.mk [(0, LogEntry.mk 0 1 "x")] 1 0 []) rfl,
    commit_monotone_noop.2 (-5) initState (by decide)⟩

/-- C5: the claim says `CommitLogs(c)` with `c` above the current committed
index must abort fatally when some newly committed index has no stored entry.
The code does not: from committed index -1 with an empty store, `CommitLogs 0`
returns normally (no `RAFTCPP_CHECK` failure), merely setting the committed
index, because the dead apply loop never executes the presence check. -/
theorem commit_missing_entry_no_abort :
    storeFind initState.store 0 = none ∧
    CommitLogs 0 initState = .ok (MState.mk [] 0 0 []) :=
  ⟨rfl, rfl⟩

/-- C6: pushing the same `(committed_index, prev_term, entry)` twice in a row
returns, after the second call, exactly the state left by the first call
(stored-entry map, `next_index`, and all other fields identical). -/
theorem push_idempotent (c p : Int) (e : LogEntry) (s s1 : MState)
    (hs : storeSortedB s.store = true) (h : Push c p e s = .ok s1) :
    Push c p e s1 = .ok s1 := by
  by_cases h0 : 0 ≤ e.log_index
  · rw [push_eq_ok c p e s h0] at h
    injection h with h
    subst h
    rw [push_eq_ok c p e (pushResult c p e s) h0]
    congr 1
    have f1 : storeFind (pushResult c p e s).store e.log_index = some e :=
      pushResult_find_self c p e s
    have f2 : storeSortedB (pushResult c p e s).store = true :=
      pushResult_sorted c p e s hs
    have f3 : e.log_index + 1 ≤ (pushResult c p e s).next_index :=
      pushResult_next_ge c p e s
    have f4 : storeFind (pushResult c p e s).store (e.log_index - 1) =
        storeFind s.store (e.log_index - 1) :=
      pushResult_find_lt c p e s _ (by omega)
    have f5 : c ≤ (pushResult c p e s).committed_log_index := by
      rw [pushResult_committed]
      exact (commitResult_committed_ge c (pushGapCheck p e s)).1
    refine pushResult_fixed c p e _ f1 f2 f3 f5 ?_
    by_cases hpos : e.log_index > 0
    · cases hf : storeFind s.store (e.log_index - 1) with
      | none =>
        refine Or.inr ⟨?_, ?_⟩
        · exact pushGapCheck_next_of_gap p e _ hpos (Or.inl (f4.trans hf))
        · exact pushResult_next_of_gap_next_le c p e s
            (by rw [pushGapCheck_next_of_gap p e s hpos (Or.inl hf)]; omega)
      | some pe =>
        by_cases hpe : pe.term = p
        · exact Or.inl (by rw [pushGapCheck_of_matching p e pe _ (f4.trans hf) hpe])
        · refine Or.inr ⟨?_, ?_⟩
          · exact pushGapCheck_next_of_gap p e _ hpos (Or.inr ⟨pe, f4.trans hf, hpe⟩)
          · exact pushResult_next_of_gap_next_le c p e s
              (by rw [pushGapCheck_next_of_gap p e s hpos (Or.inr ⟨pe, hf, hpe⟩)]; omega)
    · exact Or.inl (by rw [pushGapCheck_of_zero p e _ hpos])
  · rw [Push, if_neg h0] at h
    exact Except.noConfusion h

/-- Witness for C6: re-pushing the entry stored by a first concrete push
returns the first push's state unchanged. -/
theorem push_idempotent_witness :
    Push (-1) 1 (LogEntry.mk 2 1 "c")
        (MState.mk [(0, LogEntry.mk 0 1 "a"), (2, LogEntry.mk 2 1 "c")] 3 (-1) []) =
      .ok (MState.mk [(0, LogEntry.mk 0 1 "a"), (2, LogEntry.mk 2 1 "c")] 3 (-1) []) :=
  push_idempotent (-1) 1 (LogEntry.mk 2 1 "c")
    (MState.mk [(0, LogEntry.mk 0 1 "a")] 1 (-1) [])
    (MState.mk [(0, LogEntry.mk 0 1 "a"), (2, LogEntry.mk 2 1 "c")] 3 (-1) [])
    (by decide) rfl

/-- C7: when the leader-link resolver returns no handle, `DoPullLogs` sends no
request, leaves the timer registration and the whole log state (store,
`next_index`, committed index) unchanged, and clears the actively-polling
flag; when a handle is available, it issues exactly one pull request carrying
this node's identity and the current `next_index`. -/
theorem doPullLogs_behavior (nid : String) (s : ManagerState) :
    DoPullLogs nid none s = ({ s with is_running := false }, none) ∧
    ∀ h : Unit, DoPullLogs nid (some h) s =
      (s, some (PullLogsRequest.mk nid s.log.next_index)) :=
  ⟨rfl, fun _ => rfl⟩

/-- C8: the claim says every shared-state access of one `Push` or one
`DoPullLogs` invocation happens under the single exclusive lock.  This holds
for `DoPullLogs` (its `lock_guard` at line 98 covers the whole body, in both
branches) but fails for `Push`: its body, traced in source order, performs all
its accesses to `all_log_entries_` / `next_index_` / `committed_log_index_`
at lock depth zero. -/
theorem push_lock_violation :
    accessesLockedFrom 0 pushLockTrace = false ∧
    accessesLockedFrom 0 (doPullLogsLockTrace true) = true ∧
    accessesLockedFrom 0 (doPullLogsLockTrace false) = true := by
  decide

/-- C9: any `Push` that returns normally leaves `next_index` at least
`log_index + 1`: the final frontier-advance step overrides the earlier
gap-detection or conflict-truncation assignments. -/
theorem push_next_index_floor (c p : Int) (e : LogEntry) (s s1 : MState)
    (h : Push c p e s = .ok s1) : e.log_index + 1 ≤ s1.next_index := by
  by_cases h0 : 0 ≤ e.log_index
  · rw [push_eq_ok c p e s h0] at h
    injection h with h
    subst h
    exact pushResult_next_ge c p e s
  · rw [Push, if_neg h0] at h
    exact Except.noConfusion h

/-- Witness for C9: the concrete gap push of index 2 ends with `next_index`
3 ≥ 2 + 1. -/
theorem push_next_index_floor_witness :
    (2 : Int) + 1 ≤
      (MState.mk [(0, LogEntry.mk 0 1 "a"), (2, LogEntry.mk 2 1 "c")]
        3 (-1) []).next_index :=
  push_next_index_floor (-1) 1 (LogEntry.mk 2 1 "c")
    (MState.mk [(0, LogEntry.mk 0 1 "a")] 1 (-1) [])
    (MState.mk [(0, LogEntry.mk 0 1 "a"), (2, LogEntry.mk 2 1 "c")] 3 (-1) []) rfl

/-- C10: `Push` never changes a stored entry at an index strictly below the
pushed index — truncation only deletes from `log_index` upward and the single
insert is at `log_index`. -/
theorem push_frame_below (c p : Int) (e : LogEntry) (s s1 : MState)
    (h : Push c p e s = .ok s1) (j : Int) (hj : j < e.log_index) :
    storeFind s1.store j = storeFind s.store j := by
  by_cases h0 : 0 ≤ e.log_index
  · rw [push_eq_ok c p e s h0] at h
    injection h with h
    subst h
    exact pushResult_find_lt c p e s j hj
  · rw [Push, if_neg h0] at h
    exact Except.noConfusion h

/-- Witness for C10: pushing index 2 leaves the entry at index 0 unchanged. -/
theorem push_frame_below_witness :
    storeFind (MState.mk [(0, LogEntry.mk 0 1 "a"), (2, LogEntry.mk 2 1 "c")]
        3 (-1) []).store 0 =
      storeFind (MState.mk [(0, LogEntry.mk 0 1 "a")] 1 (-1) []).store 0 :=
  push_frame_below (-1) 1 (LogEntry.mk 2 1 "c")
    (MState.mk [(0, LogEntry.mk 0 1 "a")] 1 (-1) [])
    (MState.mk [(0, LogEntry.mk 0 1 "a"), (2, LogEntry.mk 2 1 "c")] 3 (-1) [])
    rfl 0 (by decide)

end Raftcpp
